import Mathlib

/-!
# Verification of the memory-oriented load balancer

A shallow embedding, in Lean 4, of the core of a Rust reverse proxy /
load balancer: the telemetry-driven weighted selection strategy
(`strategies/memory_monitoring.rs`), the round-robin and random strategies,
the L7 HTTP forwarder (`src/core/load-balancer/src/load_balancer.rs`) and
the L4 byte splice (`load-balancer/src/load_balancer.rs`).

## Numeric model

The Rust code computes with `f64`.  We model `f64` as the type `F` below:
exact rationals extended with the IEEE special values `+inf`, `-inf` and
`NaN`.  Arithmetic on finite values is exact rational arithmetic;
operations involving the special values (division by zero, `inf - inf`,
`0 * inf`, comparisons against `NaN`, Rust's `f64::max` NaN handling)
follow the IEEE-754 rules.  Rounding, overflow to infinity of finite
operations, and the sign of zero are not modelled; none of the verified
properties depends on them.  Values decoded from JSON by `serde_json`
are always finite, so sample payloads carry plain rationals.
-/

/-- Model of an `f64` value: a finite rational, an infinity, or `NaN`. -/
inductive F where
  | fin (q : ℚ)
  | pinf
  | ninf
  | nan
deriving DecidableEq, Repr

namespace F

/-- Model of `f64::is_finite`. -/
def isFinite : F → Bool
  | .fin _ => true
  | _ => false

/-- IEEE negation. -/
def neg : F → F
  | .fin q => .fin (-q)
  | .pinf => .ninf
  | .ninf => .pinf
  | .nan => .nan

/-- IEEE addition (exact on finite operands). -/
def add : F → F → F
  | .nan, _ => .nan
  | _, .nan => .nan
  | .pinf, .ninf => .nan
  | .ninf, .pinf => .nan
  | .pinf, _ => .pinf
  | _, .pinf => .pinf
  | .ninf, _ => .ninf
  | _, .ninf => .ninf
  | .fin a, .fin b => .fin (a + b)

/-- IEEE subtraction. -/
def sub (a b : F) : F := add a (neg b)

/-- IEEE multiplication (exact on finite operands, `0 * inf = NaN`). -/
def mul : F → F → F
  | .nan, _ => .nan
  | _, .nan => .nan
  | .fin a, .fin b => .fin (a * b)
  | .fin a, .pinf => if 0 < a then .pinf else if a < 0 then .ninf else .nan
  | .fin a, .ninf => if 0 < a then .ninf else if a < 0 then .pinf else .nan
  | .pinf, .fin b => if 0 < b then .pinf else if b < 0 then .ninf else .nan
  | .ninf, .fin b => if 0 < b then .ninf else if b < 0 then .pinf else .nan
  | .pinf, .pinf => .pinf
  | .pinf, .ninf => .ninf
  | .ninf, .pinf => .ninf
  | .ninf, .ninf => .pinf

/-- IEEE division (exact on finite operands; division by zero produces an
infinity or `NaN` according to the sign of the numerator; the sign of zero
is not modelled). -/
def div : F → F → F
  | .nan, _ => .nan
  | _, .nan => .nan
  | .fin a, .fin b =>
      if b = 0 then (if 0 < a then .pinf else if a < 0 then .ninf else .nan)
      else .fin (a / b)
  | .fin _, .pinf => .fin 0
  | .fin _, .ninf => .fin 0
  | .pinf, .fin b => if 0 ≤ b then .pinf else .ninf
  | .ninf, .fin b => if 0 ≤ b then .ninf else .pinf
  | .pinf, _ => .nan
  | .ninf, _ => .nan

/-- IEEE `<=` comparison: any comparison against `NaN` is `false`. -/
def le : F → F → Bool
  | .nan, _ => false
  | _, .nan => false
  | .ninf, _ => true
  | _, .pinf => true
  | .pinf, _ => false
  | .fin _, .ninf => false
  | .fin a, .fin b => decide (a ≤ b)

/-- IEEE `<` comparison: any comparison against `NaN` is `false`. -/
def lt : F → F → Bool
  | .nan, _ => false
  | _, .nan => false
  | .pinf, _ => false
  | .ninf, .ninf => false
  | .ninf, _ => true
  | .fin _, .pinf => true
  | .fin _, .ninf => false
  | .fin a, .fin b => decide (a < b)

/-- Rust `f64::max`: if one operand is `NaN` the other is returned. -/
def fmax : F → F → F
  | .nan, b => b
  | a, .nan => a
  | a, b => if le a b then b else a

/-- Sum of a list of `F` values, folded left starting from `0.0`
(as Rust's `Iterator::sum` on `f64`). -/
def sumF (l : List F) : F := l.foldl add (.fin 0)

end F

/-! ## Association-list model of `HashMap<String, V>`

The three backend-keyed maps of the weighted strategy are `HashMap`s.
We model them as association lists with unique keys; `insertVal` has the
`HashMap::insert` semantics (replace the binding if the key is present,
append it otherwise).  Iteration order over an association list is fixed,
which is sound here because the numeric model is exact (sums do not depend
on the order of addition). -/

/-- Model of `HashMap::get`. -/
def findVal {α : Type} : List (String × α) → String → Option α
  | [], _ => none
  | (k, v) :: rest, key => if k = key then some v else findVal rest key

/-- Model of `HashMap::insert`. -/
def insertVal {α : Type} : List (String × α) → String → α → List (String × α)
  | [], k, v => [(k, v)]
  | (k', v') :: rest, k, v =>
      if k' = k then (k, v) :: rest else (k', v') :: insertVal rest k v

/-- The key set of a map. -/
def keysOf {α : Type} (m : List (String × α)) : List String := m.map Prod.fst

/-- The stored values of a map. -/
def valsOf {α : Type} (m : List (String × α)) : List α := m.map Prod.snd

/-- A map is well formed when its keys are pairwise distinct
(`HashMap` guarantees this). -/
def nodupKeys {α : Type} (m : List (String × α)) : Prop := (keysOf m).Nodup

theorem findVal_insertVal {α : Type} (m : List (String × α)) (k : String) (v : α)
    (k' : String) :
    findVal (insertVal m k v) k' = if k = k' then some v else findVal m k' := by
  induction m with
  | nil => simp [insertVal, findVal]
  | cons hd tl ih =>
      obtain ⟨k0, v0⟩ := hd
      by_cases h0 : k0 = k
      · subst h0
        by_cases h1 : k0 = k'
        · subst h1; simp [insertVal, findVal]
        · simp [insertVal, findVal, h1]
      · by_cases h1 : k0 = k'
        · subst h1
          have : ¬ k = k0 := fun h => h0 h.symm
          simp [insertVal, findVal, h0, this]
        · simp [insertVal, findVal, h0, h1, ih]

theorem mem_keysOf_insertVal {α : Type} (m : List (String × α)) (k : String) (v : α)
    (k' : String) :
    k' ∈ keysOf (insertVal m k v) ↔ k' ∈ keysOf m ∨ k' = k := by
  induction m with
  | nil => simp [insertVal, keysOf]
  | cons hd tl ih =>
      obtain ⟨k0, v0⟩ := hd
      by_cases h0 : k0 = k
      · subst h0
        simp [insertVal, keysOf]
        tauto
      · simp only [insertVal, if_neg h0, keysOf, List.map_cons, List.mem_cons] at *
        rw [ih]
        tauto

theorem nodupKeys_insertVal {α : Type} (m : List (String × α)) (k : String) (v : α)
    (h : nodupKeys m) : nodupKeys (insertVal m k v) := by
  induction m with
  | nil => simp [insertVal, nodupKeys, keysOf]
  | cons hd tl ih =>
      obtain ⟨k0, v0⟩ := hd
      simp only [nodupKeys, keysOf, List.map_cons, List.nodup_cons] at h
      by_cases h0 : k0 = k
      · subst h0
        simpa [insertVal, nodupKeys, keysOf, List.nodup_cons] using h
      · have htl := ih h.2
        simp only [insertVal, if_neg h0, nodupKeys, keysOf, List.map_cons,
          List.nodup_cons]
        refine ⟨?_, htl⟩
        intro hmem
        rcases (mem_keysOf_insertVal tl k v k0).mp hmem with hm | hm
        · exact h.1 hm
        · exact h0 hm

theorem findVal_eq_none_of_not_mem {α : Type} (m : List (String × α)) (k : String)
    (h : k ∉ keysOf m) : findVal m k = none := by
  induction m with
  | nil => rfl
  | cons hd tl ih =>
      obtain ⟨k0, v0⟩ := hd
      simp only [keysOf, List.map_cons, List.mem_cons] at h
      push_neg at h
      have : k0 ≠ k := fun h' => h.1 (h' ▸ rfl)
      simp [findVal, this, ih h.2]

theorem findVal_isSome_of_mem {α : Type} (m : List (String × α)) (k : String)
    (h : k ∈ keysOf m) : ∃ v, findVal m k = some v := by
  induction m with
  | nil => simp [keysOf] at h
  | cons hd tl ih =>
      obtain ⟨k0, v0⟩ := hd
      by_cases h0 : k0 = k
      · exact ⟨v0, by simp [findVal, h0]⟩
      · simp only [keysOf, List.map_cons, List.mem_cons] at h
        rcases h with h | h
        · exact absurd h.symm h0
        · obtain ⟨v, hv⟩ := ih h
          exact ⟨v, by simp [findVal, h0, hv]⟩

/-! ## The telemetry-driven weighted strategy (`memory_monitoring.rs`)

`MemoryMonitoringStrategy` keeps three `HashMap<String, _>`s (`servers_info_map`,
`servers_li_map`, `servers_probability_map`) and an atomic request counter `r`.
The MQTT ingest task performs, for each decoded payload, a *sample update*
(lines 86-182); `pick_server` (lines 261-309) performs the weighted draw.
We model both as pure state transformers; the random draws of `pick_server`
become explicit parameters (`u` for `rng.gen::<f64>()`, which lies in
`[0, 1)`, and `idx` for `rng.gen_range(0..servers.len())`, modelled as an
arbitrary natural taken modulo `servers.len()` — both have the same range). -/

/-- The `ServerInfo` record: last-seen normalized memory load, disk load and
sample timestamp (`lmi`, `ldi`, `ti`). -/
structure ServerInfo where
  lmi : ℚ
  ldi : ℚ
  ti : ℤ
deriving DecidableEq, Repr

/-- A decoded `MetricsPayload` (absolute values are used only for logging and
are omitted).  `serde_json` never produces non-finite `f64`s, so the
normalized loads are plain rationals. -/
structure MetricsPayload where
  server_socket : String
  memNorm : ℚ
  diskNorm : ℚ
  timestamp_unix : ℤ
deriving DecidableEq, Repr

/-- The shared state of `MemoryMonitoringStrategy`. -/
structure StratState where
  servers_info_map : List (String × ServerInfo)
  servers_li_map : List (String × ℚ)
  servers_probability_map : List (String × F)
  r : ℕ
deriving DecidableEq, Repr

/-- Initial state: all maps empty, `r = 0`. -/
def initState : StratState := ⟨[], [], [], 0⟩

/-- The info map after inserting the payload's `{LM, LD, T}` record
(lines 86-96). -/
def updInfo (p : MetricsPayload) (st : StratState) : List (String × ServerInfo) :=
  insertVal st.servers_info_map p.server_socket
    ⟨p.memNorm, p.diskNorm, p.timestamp_unix⟩

/-- Mean `T_M` of the `LMi` over the info map (0 when the map is empty,
lines 99-123). -/
def meanLmi (info : List (String × ServerInfo)) : ℚ :=
  if info.length = 0 then 0
  else (info.map (fun kv => kv.2.lmi)).sum / (info.length : ℚ)

/-- Mean `T_D` of the `LDi` over the info map. -/
def meanLdi (info : List (String × ServerInfo)) : ℚ :=
  if info.length = 0 then 0
  else (info.map (fun kv => kv.2.ldi)).sum / (info.length : ℚ)

/-- Mean staleness `T̄`: the mean of `max(0, now - Ti)` over the info map. -/
def meanStaleness (now : ℤ) (info : List (String × ServerInfo)) : ℚ :=
  if info.length = 0 then 0
  else (info.map (fun kv => max ((now - kv.2.ti : ℤ) : ℚ) 0)).sum / (info.length : ℚ)

/-- Coefficient `C_M`, the weight of the memory resource: `T_M / (T_M + T_D)` when the
denominator is positive, `0.5` otherwise (lines 125-131). -/
def cmOf (info : List (String × ServerInfo)) : ℚ :=
  if 0 < meanLmi info + meanLdi info then meanLmi info / (meanLmi info + meanLdi info)
  else 1 / 2

/-- Coefficient `C_D`, the weight of the disk resource. -/
def cdOf (info : List (String × ServerInfo)) : ℚ :=
  if 0 < meanLmi info + meanLdi info then meanLdi info / (meanLmi info + meanLdi info)
  else 1 / 2

/-- Load score `Li = C_M * LMi + C_D * LDi` (line 139). -/
def liVal (cm cd : ℚ) (v : ServerInfo) : ℚ := cm * v.lmi + cd * v.ldi

/-- Fold a source map into a target map: every key of `src` receives `f` of
its stored value (the rewrite loops of lines 134-144, 156-158 and 176-180). -/
def writeAll {α β : Type} (m : List (String × α)) (src : List (String × β))
    (f : β → α) : List (String × α) :=
  src.foldl (fun acc kv => insertVal acc kv.1 (f kv.2)) m

/-- The L map after the recompute loop of lines 134-144: every entry of the
info map is (re)written with its fresh load score. -/
def updLi (p : MetricsPayload) (st : StratState) : List (String × ℚ) :=
  let info := updInfo p st
  writeAll st.servers_li_map info (liVal (cmOf info) (cdOf info))

/-- Total load `L_tot`: the sum of the fresh load scores, accumulated in the same loop. -/
def updLtot (p : MetricsPayload) (st : StratState) : ℚ :=
  let info := updInfo p st
  (info.map (fun kv => liVal (cmOf info) (cdOf info) kv.2)).sum

/-- Arrival term `arriveT = (r / T̄) / L_tot` (line 148; `r / t / l_tot` in the source,
computed in `f64`, hence an `F` value: dividing by a zero staleness or a zero
total load produces an infinity or `NaN`). -/
def arriveT (r : ℕ) (tbar ltot : ℚ) : F :=
  F.div (F.div (F.fin (r : ℚ)) (F.fin tbar)) (F.fin ltot)

/-- The arrival term of the update step. -/
def updArrive (now : ℤ) (p : MetricsPayload) (st : StratState) : F :=
  arriveT st.r (meanStaleness now (updInfo p st)) (updLtot p st)

/-- The raw probability `Pi = ((L_tot + arriveT) / n - Li) / arriveT`
(line 177), computed in `f64`. -/
def piRaw (ltot : ℚ) (n : ℕ) (arrive : F) (li : ℚ) : F :=
  F.div (F.sub (F.div (F.add (F.fin ltot) arrive) (F.fin (n : ℚ))) (F.fin li)) arrive

/-- Replacement of non-finite values by zero before storage (line 178). -/
def finOrZero (x : F) : F := if x.isFinite then x else F.fin 0

/-- The uniform fallback probability `1.0 / n as f64` (line 155). -/
def uniformPi (n : ℕ) : F := F.div (F.fin 1) (F.fin (n : ℚ))

/-- One full sample update of the ingest task (lines 86-182): replace the
backend's record, recompute the aggregates, the L map, `arriveT`, then
rewrite the probability map (uniform fallback when the L map is empty or
`arriveT <= 0.0`; otherwise the probability formula with non-finite results
replaced by zero). -/
def sampleUpdate (now : ℤ) (p : MetricsPayload) (st : StratState) : StratState :=
  let info' := updInfo p st
  let n := info'.length
  let li' := updLi p st
  let arrive := updArrive now p st
  let pi' :=
    if li' = [] ∨ F.le arrive (F.fin 0) then
      writeAll st.servers_probability_map li' (fun _ => uniformPi n)
    else
      writeAll st.servers_probability_map li'
        (fun l => finOrZero (piRaw (updLtot p st) n arrive l))
  { servers_info_map := info', servers_li_map := li',
    servers_probability_map := pi', r := st.r }

/-- The weight vector of `pick_server` (lines 282-286):
`wj = probabilities.get(s).copied().unwrap_or(0.0).max(0.0)`. -/
def weightsOf (probs : List (String × F)) (servers : List String) :
    List (String × F) :=
  servers.map (fun s => (s, F.fmax ((findVal probs s).getD (F.fin 0)) (F.fin 0)))

/-- The linear scan of lines 292-298: skip non-positive weights, return the
first candidate whose weight absorbs the remaining threshold, otherwise
decrement the threshold. -/
def scanWeights : List (String × F) → F → Option String
  | [], _ => none
  | (s, w) :: rest, threshold =>
    if F.le w (F.fin 0) then scanWeights rest threshold
    else if F.le threshold w then some s
    else scanWeights rest (F.sub threshold w)

/-- The selection of `pick_server` once the snapshot is fixed (lines 282-306):
weighted draw when the total weight is positive (with last-candidate
fallback), uniform random draw otherwise. -/
def pickChosen (servers : List String) (probs : List (String × F)) (u : F)
    (idx : ℕ) : Option String :=
  let weights := weightsOf probs servers
  let total := F.sumF (weights.map (fun kv => kv.2))
  if F.lt (F.fin 0) total then
    match scanWeights weights (F.mul u total) with
    | some s => some s
    | none => some (((weights.getLast?).map (fun kv => kv.1)).getD (servers.getD 0 ""))
  else
    some (servers.getD (idx % servers.length) "")

/-- Model of `MemoryMonitoringStrategy::pick_server` (lines 261-309): `None` on an
empty candidate list; otherwise increment `r`, snapshot the probability map
(initializing it to the uniform distribution over the candidates when it is
empty), and run the weighted draw.  Returns the choice and the new state. -/
def pick_server (servers : List String) (u : F) (idx : ℕ) (st : StratState) :
    Option String × StratState :=
  if servers = [] then (none, st)
  else
    let st1 : StratState := { st with r := st.r + 1 }
    let probs :=
      if st1.servers_probability_map = [] then
        servers.foldl
          (fun acc s => insertVal acc s (uniformPi servers.length))
          st1.servers_probability_map
      else st1.servers_probability_map
    (pickChosen servers probs u idx, { st1 with servers_probability_map := probs })

/-- The reachable states of the strategy: any interleaving of sample updates
(ingest task) and `pick_server` calls starting from the empty state. -/
inductive Reachable : StratState → Prop
  | init : Reachable initState
  | update (now : ℤ) (p : MetricsPayload) (st : StratState) :
      Reachable st → Reachable (sampleUpdate now p st)
  | pick (servers : List String) (u : F) (idx : ℕ) (st : StratState) :
      Reachable st → Reachable (pick_server servers u idx st).2

/-! ### Map-rewriting lemmas -/

theorem insertVal_ne_nil {α : Type} (m : List (String × α)) (k : String) (v : α) :
    insertVal m k v ≠ [] := by
  cases m with
  | nil => simp [insertVal]
  | cons hd tl =>
      obtain ⟨k0, v0⟩ := hd
      by_cases h : k0 = k <;> simp [insertVal, h]

theorem findVal_writeAll {α β : Type} (m : List (String × α))
    (li : List (String × β)) (f : β → α) (k : String) (hnd : nodupKeys li) :
    findVal (writeAll m li f) k =
      match findVal li k with
      | some l => some (f l)
      | none => findVal m k := by
  induction li generalizing m with
  | nil => simp [writeAll, findVal]
  | cons hd tl ih =>
      obtain ⟨k0, l0⟩ := hd
      simp only [nodupKeys, keysOf, List.map_cons, List.nodup_cons] at hnd
      have step : writeAll m ((k0, l0) :: tl) f
          = writeAll (insertVal m k0 (f l0)) tl f := rfl
      rw [step, ih _ hnd.2]
      by_cases h : k0 = k
      · subst h
        have : findVal tl k0 = none :=
          findVal_eq_none_of_not_mem tl k0 hnd.1
        simp [findVal, this, findVal_insertVal]
      · simp only [findVal, if_neg h]
        cases hfind : findVal tl k with
        | some l => simp
        | none => simp [findVal_insertVal, h]

theorem mem_keysOf_writeAll {α β : Type} (m : List (String × α))
    (li : List (String × β)) (f : β → α) (k : String) :
    k ∈ keysOf (writeAll m li f) ↔ k ∈ keysOf m ∨ k ∈ keysOf li := by
  induction li generalizing m with
  | nil => simp [writeAll, keysOf]
  | cons hd tl ih =>
      obtain ⟨k0, l0⟩ := hd
      have step : writeAll m ((k0, l0) :: tl) f
          = writeAll (insertVal m k0 (f l0)) tl f := rfl
      rw [step, ih]
      rw [mem_keysOf_insertVal]
      simp only [keysOf, List.map_cons, List.mem_cons]
      tauto

theorem nodupKeys_writeAll {α β : Type} (m : List (String × α))
    (li : List (String × β)) (f : β → α) (h : nodupKeys m) :
    nodupKeys (writeAll m li f) := by
  induction li generalizing m with
  | nil => exact h
  | cons hd tl ih =>
      obtain ⟨k0, l0⟩ := hd
      exact ih _ (nodupKeys_insertVal m k0 (f l0) h)

theorem valsOf_insertVal {α : Type} (m : List (String × α)) (k : String) (x : α)
    (v : α) (h : v ∈ valsOf (insertVal m k x)) : v = x ∨ v ∈ valsOf m := by
  induction m with
  | nil => simpa [insertVal, valsOf] using h
  | cons hd tl ih =>
      obtain ⟨k0, v0⟩ := hd
      by_cases h0 : k0 = k
      · subst h0
        simp [insertVal, valsOf] at h ⊢
        tauto
      · simp only [insertVal, if_neg h0, valsOf, List.map_cons, List.mem_cons] at h ⊢
        rcases h with h | h
        · tauto
        · rcases ih h with h | h <;> tauto

theorem valsOf_writeAll {α β : Type} (m : List (String × α))
    (li : List (String × β)) (f : β → α) (v : α) (h : v ∈ valsOf (writeAll m li f)) :
    v ∈ valsOf m ∨ ∃ kv ∈ li, v = f kv.2 := by
  induction li generalizing m with
  | nil => exact Or.inl h
  | cons hd tl ih =>
      obtain ⟨k0, l0⟩ := hd
      have step : writeAll m ((k0, l0) :: tl) f
          = writeAll (insertVal m k0 (f l0)) tl f := rfl
      rw [step] at h
      rcases ih _ h with h' | h'
      · rcases valsOf_insertVal m k0 (f l0) v h' with h'' | h''
        · exact Or.inr ⟨(k0, l0), by simp, h''⟩
        · exact Or.inl h''
      · obtain ⟨kv, hkv, hv⟩ := h'
        exact Or.inr ⟨kv, by simp [hkv], hv⟩

/-- Insert the same value at every key of a list of keys (the uniform
initialization loop of `pick_server`, lines 274-280). -/
def insertAllK (m : List (String × F)) (ks : List String) (v : F) :
    List (String × F) :=
  ks.foldl (fun acc s => insertVal acc s v) m

theorem valsOf_insertAllK (m : List (String × F)) (ks : List String) (x : F)
    (v : F) (h : v ∈ valsOf (insertAllK m ks x)) : v = x ∨ v ∈ valsOf m := by
  induction ks generalizing m with
  | nil => exact Or.inr h
  | cons hd tl ih =>
      have step : insertAllK m (hd :: tl) x = insertAllK (insertVal m hd x) tl x := rfl
      rw [step] at h
      rcases ih _ h with h' | h'
      · exact Or.inl h'
      · exact valsOf_insertVal m hd x v h'

theorem nodupKeys_insertAllK (m : List (String × F)) (ks : List String) (x : F)
    (h : nodupKeys m) : nodupKeys (insertAllK m ks x) := by
  induction ks generalizing m with
  | nil => exact h
  | cons hd tl ih => exact ih _ (nodupKeys_insertVal m hd x h)

theorem mem_keysOf_insertAllK (m : List (String × F)) (ks : List String) (x : F)
    (k : String) : k ∈ keysOf (insertAllK m ks x) ↔ k ∈ keysOf m ∨ k ∈ ks := by
  induction ks generalizing m with
  | nil => simp [insertAllK]
  | cons hd tl ih =>
      have step : insertAllK m (hd :: tl) x = insertAllK (insertVal m hd x) tl x := rfl
      rw [step, ih, mem_keysOf_insertVal]
      simp only [List.mem_cons]
      tauto

theorem finOrZero_isFinite (x : F) : (finOrZero x).isFinite = true := by
  cases x <;> rfl

theorem uniformPi_isFinite (n : ℕ) (h : n ≠ 0) : (uniformPi n).isFinite = true := by
  have : ((n : ℚ)) ≠ 0 := by exact_mod_cast h
  simp [uniformPi, F.div, this, F.isFinite]

/-! ### Projection lemmas for the two step functions -/

theorem sampleUpdate_info (now : ℤ) (p : MetricsPayload) (st : StratState) :
    (sampleUpdate now p st).servers_info_map = updInfo p st := rfl

theorem sampleUpdate_li (now : ℤ) (p : MetricsPayload) (st : StratState) :
    (sampleUpdate now p st).servers_li_map = updLi p st := rfl

theorem sampleUpdate_r (now : ℤ) (p : MetricsPayload) (st : StratState) :
    (sampleUpdate now p st).r = st.r := rfl

theorem updLi_eq (p : MetricsPayload) (st : StratState) :
    updLi p st = writeAll st.servers_li_map (updInfo p st)
      (liVal (cmOf (updInfo p st)) (cdOf (updInfo p st))) := rfl

theorem sampleUpdate_pi (now : ℤ) (p : MetricsPayload) (st : StratState) :
    (sampleUpdate now p st).servers_probability_map =
      if updLi p st = [] ∨ F.le (updArrive now p st) (F.fin 0) then
        writeAll st.servers_probability_map (updLi p st)
          (fun _ => uniformPi (updInfo p st).length)
      else
        writeAll st.servers_probability_map (updLi p st)
          (fun l => finOrZero
            (piRaw (updLtot p st) (updInfo p st).length (updArrive now p st) l)) := rfl

/-- The probability map written by `pick_server`. -/
def pickPi (servers : List String) (st : StratState) : List (String × F) :=
  if st.servers_probability_map = [] then
    insertAllK st.servers_probability_map servers (uniformPi servers.length)
  else st.servers_probability_map

theorem pick_server_snd (servers : List String) (u : F) (idx : ℕ)
    (st : StratState) :
    (pick_server servers u idx st).2 =
      if servers = [] then st
      else ⟨st.servers_info_map, st.servers_li_map, pickPi servers st,
        st.r + 1⟩ := by
  by_cases h : servers = [] <;>
    simp [pick_server, h, insertAllK, pickPi]

/-! ### The structural invariant of reachable states -/

/-- Invariant of every reachable strategy state: all three maps have
pairwise-distinct keys, the info and L maps share their key set, every L key
is also a probability key, and every stored probability is finite. -/
structure GoodState (st : StratState) : Prop where
  ndInfo : nodupKeys st.servers_info_map
  ndLi : nodupKeys st.servers_li_map
  ndPi : nodupKeys st.servers_probability_map
  keysInfoLi : ∀ k, k ∈ keysOf st.servers_info_map ↔ k ∈ keysOf st.servers_li_map
  keysLiPi : ∀ k, k ∈ keysOf st.servers_li_map →
    k ∈ keysOf st.servers_probability_map
  piFinite : ∀ v ∈ valsOf st.servers_probability_map, v.isFinite = true

theorem updInfo_length_pos (p : MetricsPayload) (st : StratState) :
    1 ≤ (updInfo p st).length := by
  have h := insertVal_ne_nil st.servers_info_map p.server_socket
    ⟨p.memNorm, p.diskNorm, p.timestamp_unix⟩
  have : updInfo p st ≠ [] := h
  cases hinfo : updInfo p st with
  | nil => exact absurd hinfo this
  | cons a l => simp

theorem reachable_good (st : StratState) (h : Reachable st) : GoodState st := by
  induction h with
  | init =>
      refine ⟨List.nodup_nil, List.nodup_nil, List.nodup_nil, ?_, ?_, ?_⟩
      · intro k; simp [initState, keysOf]
      · intro k hk; simp [initState, keysOf] at hk
      · intro v hv; simp [initState, valsOf] at hv
  | update now p st hst ih =>
      have hinfo_nd : nodupKeys (updInfo p st) :=
        nodupKeys_insertVal _ _ _ ih.ndInfo
      have hli_nd : nodupKeys (updLi p st) := by
        rw [updLi_eq]; exact nodupKeys_writeAll _ _ _ ih.ndLi
      have hkeys_li : ∀ k, k ∈ keysOf (updLi p st) ↔
          k ∈ keysOf st.servers_li_map ∨ k ∈ keysOf (updInfo p st) := by
        intro k; rw [updLi_eq]; exact mem_keysOf_writeAll _ _ _ k
      have hkeys_info_li : ∀ k,
          k ∈ keysOf (updInfo p st) ↔ k ∈ keysOf (updLi p st) := by
        intro k
        rw [hkeys_li k]
        constructor
        · exact fun hk => Or.inr hk
        · rintro (hk | hk)
          · have := (ih.keysInfoLi k).mpr hk
            exact (mem_keysOf_insertVal _ _ _ k).mpr (Or.inl this)
          · exact hk
      have hn : (updInfo p st).length ≠ 0 := by
        have := updInfo_length_pos p st; omega
      constructor
      · rw [sampleUpdate_info]; exact hinfo_nd
      · rw [sampleUpdate_li]; exact hli_nd
      · rw [sampleUpdate_pi]
        by_cases hcond : updLi p st = [] ∨ F.le (updArrive now p st) (F.fin 0)
        · rw [if_pos hcond]; exact nodupKeys_writeAll _ _ _ ih.ndPi
        · rw [if_neg hcond]; exact nodupKeys_writeAll _ _ _ ih.ndPi
      · intro k; rw [sampleUpdate_info, sampleUpdate_li]; exact hkeys_info_li k
      · intro k hk
        rw [sampleUpdate_li] at hk
        rw [sampleUpdate_pi]
        by_cases hcond : updLi p st = [] ∨ F.le (updArrive now p st) (F.fin 0)
        · rw [if_pos hcond]; exact (mem_keysOf_writeAll _ _ _ k).mpr (Or.inr hk)
        · rw [if_neg hcond]; exact (mem_keysOf_writeAll _ _ _ k).mpr (Or.inr hk)
      · intro v hv
        rw [sampleUpdate_pi] at hv
        by_cases hcond : updLi p st = [] ∨ F.le (updArrive now p st) (F.fin 0)
        · rw [if_pos hcond] at hv
          rcases valsOf_writeAll _ _ _ v hv with h' | ⟨kv, _, hval⟩
          · exact ih.piFinite v h'
          · rw [hval]; exact uniformPi_isFinite _ hn
        · rw [if_neg hcond] at hv
          rcases valsOf_writeAll _ _ _ v hv with h' | ⟨kv, _, hval⟩
          · exact ih.piFinite v h'
          · rw [hval]; exact finOrZero_isFinite _
  | pick servers u idx st hst ih =>
      rw [pick_server_snd]
      by_cases h : servers = []
      · rw [if_pos h]; exact ih
      · rw [if_neg h]
        have hndPi : nodupKeys (pickPi servers st) := by
          unfold pickPi
          by_cases hP : st.servers_probability_map = []
          · rw [if_pos hP, hP]
            exact nodupKeys_insertAllK _ _ _ List.nodup_nil
          · rw [if_neg hP]; exact ih.ndPi
        have hkeysPi : ∀ k, k ∈ keysOf st.servers_probability_map →
            k ∈ keysOf (pickPi servers st) := by
          intro k hk
          unfold pickPi
          by_cases hP : st.servers_probability_map = []
          · rw [hP] at hk; simp [keysOf] at hk
          · rw [if_neg hP]; exact hk
        have hvalsPi : ∀ v, v ∈ valsOf (pickPi servers st) → v.isFinite = true := by
          intro v hv
          unfold pickPi at hv
          by_cases hP : st.servers_probability_map = []
          · rw [if_pos hP, hP] at hv
            rcases valsOf_insertAllK _ _ _ v hv with h' | h'
            · rw [h']
              refine uniformPi_isFinite _ ?_
              cases servers with
              | nil => exact absurd rfl h
              | cons a l => simp
            · simp [valsOf] at h'
          · rw [if_neg hP] at hv; exact ih.piFinite v hv
        exact ⟨ih.ndInfo, ih.ndLi, hndPi, ih.keysInfoLi,
          fun k hk => hkeysPi k (ih.keysLiPi k hk), hvalsPi⟩

/-! ## C1, C3, C4: the probability recomputation -/

/-- C1: after every successful sample update — which always leaves `n ≥ 1`
backends tracked — the probability map is rewritten so that if
`arriveT <= 0.0` every tracked backend stores the uniform probability `1/n`,
and otherwise every tracked backend stores
`((L_tot + arriveT) / n - Li) / arriveT` with any non-finite result replaced
by zero before storage; consequently every stored probability is finite. -/
theorem sampleUpdate_rewrites_probabilities (st : StratState)
    (hst : Reachable st) (now : ℤ) (p : MetricsPayload) :
    1 ≤ (updInfo p st).length ∧
    (F.le (updArrive now p st) (F.fin 0) = true →
      ∀ k ∈ keysOf (sampleUpdate now p st).servers_li_map,
        findVal (sampleUpdate now p st).servers_probability_map k
          = some (uniformPi (updInfo p st).length)) ∧
    (F.le (updArrive now p st) (F.fin 0) = false →
      ∀ k l, findVal (sampleUpdate now p st).servers_li_map k = some l →
        findVal (sampleUpdate now p st).servers_probability_map k
          = some (finOrZero
              (piRaw (updLtot p st) (updInfo p st).length (updArrive now p st) l))) ∧
    (∀ v ∈ valsOf (sampleUpdate now p st).servers_probability_map,
      v.isFinite = true) := by
  have good' := reachable_good _ (Reachable.update now p st hst)
  have hndLi : nodupKeys (updLi p st) := by
    have := good'.ndLi; rwa [sampleUpdate_li] at this
  refine ⟨updInfo_length_pos p st, ?_, ?_, good'.piFinite⟩
  · intro harr k hk
    rw [sampleUpdate_li] at hk
    rw [sampleUpdate_pi, if_pos (Or.inr harr)]
    obtain ⟨l, hl⟩ := findVal_isSome_of_mem _ _ hk
    rw [findVal_writeAll _ _ _ _ hndLi, hl]
  · intro harr k l hfind
    rw [sampleUpdate_li] at hfind
    have hcond : ¬ (updLi p st = [] ∨ F.le (updArrive now p st) (F.fin 0)) := by
      rintro (hnil | hle)
      · rw [hnil] at hfind; exact Option.noConfusion hfind
      · rw [harr] at hle; exact Bool.noConfusion hle
    rw [sampleUpdate_pi, if_neg hcond]
    rw [findVal_writeAll _ _ _ _ hndLi, hfind]

/-- Witness for C1: a concrete sample update on the initial state (where
`r = 0`, hence `arriveT = 0`) stores the uniform probability for the updated
backend. -/
theorem sampleUpdate_rewrites_probabilities_witness :
    findVal
      (sampleUpdate 10 ⟨"a", 1, 0, 0⟩ initState).servers_probability_map "a"
      = some (uniformPi (updInfo ⟨"a", 1, 0, 0⟩ initState).length) :=
  (sampleUpdate_rewrites_probabilities initState Reachable.init
    10 ⟨"a", 1, 0, 0⟩).2.1 (by with_unfolding_all decide) "a"
    (by with_unfolding_all decide)

/-- A stored probability value lies in the unit interval `[0, 1]`. -/
def inUnit (v : F) : Prop := F.le (F.fin 0) v = true ∧ F.le v (F.fin 1) = true

/-- A state reached by one `pick_server` call on the single-backend list
`["a"]` (so `r = 1` and the probability map was seeded), followed by one
sample update for backend `"a"` with full memory load and staleness 10. -/
def cexSt2 : StratState :=
  sampleUpdate 10 ⟨"a", 1, 0, 0⟩ ((pick_server ["a"] (F.fin 0) 0 initState).2)

theorem cexSt2_reachable : Reachable cexSt2 :=
  Reachable.update 10 ⟨"a", 1, 0, 0⟩ _
    (Reachable.pick ["a"] (F.fin 0) 0 initState Reachable.init)

/-- C3 counterexample: the stored probabilities do *not* always lie in
`[0, 1]`.  After a pick (`r = 1`) and a sample for `"a"` (load 1), a sample
for an idle backend `"b"` recomputes with `arriveT = 1/10` and stores
`P_a = ((1 + 1/10)/2 - 1) / (1/10) = -9/2` — the source never clamps on
write, only the read path treats negative weights as zero. -/
theorem pi_not_always_in_unit_interval :
    ¬ (∀ st, Reachable st → ∀ (now : ℤ) (p : MetricsPayload),
        ∀ v ∈ valsOf (sampleUpdate now p st).servers_probability_map,
          inUnit v) := by
  intro hcl
  have h := hcl cexSt2 cexSt2_reachable 10 ⟨"b", 0, 0, 0⟩
    (F.fin (-(9 : ℚ)/2)) (by with_unfolding_all decide)
  exact absurd h.1 (by with_unfolding_all decide)

/-- C3 amended: after each probability recomputation of the ingest task,
every stored probability is finite, for every reachable interleaving of
sample updates and picks; the unit-interval bound does not hold in storage
(it is enforced only at read time, where `pick_server` clamps negative
values to weight zero). -/
theorem pi_finite_after_update (st : StratState) (hst : Reachable st)
    (now : ℤ) (p : MetricsPayload) :
    ∀ v ∈ valsOf (sampleUpdate now p st).servers_probability_map,
      v.isFinite = true :=
  (reachable_good _ (Reachable.update now p st hst)).piFinite

/-- Witness for the amended C3: the out-of-range value stored in the
counterexample state is nevertheless finite. -/
theorem pi_finite_after_update_witness :
    (F.fin (-(9 : ℚ)/2)).isFinite = true :=
  pi_finite_after_update cexSt2 cexSt2_reachable 10 ⟨"b", 0, 0, 0⟩
    (F.fin (-(9 : ℚ)/2)) (by with_unfolding_all decide)

/-- A state reached by one `pick_server` call on `["x"]` (which seeds the
probability map with key `"x"`) followed by a sample update for a different
backend `"b"`. -/
def cexKeysSt : StratState :=
  sampleUpdate 10 ⟨"b", 0, 0, 0⟩ ((pick_server ["x"] (F.fin 0) 0 initState).2)

theorem cexKeysSt_reachable_aux :
    Reachable ((pick_server ["x"] (F.fin 0) 0 initState).2) :=
  Reachable.pick ["x"] (F.fin 0) 0 initState Reachable.init

/-- C4 counterexample: the three maps do *not* always share one key set
after an update cycle.  A `pick_server` call made before any telemetry
arrives seeds the probability map with the candidate `"x"`; a later sample
update for `"b"` rewrites the info and L maps (key set `{"b"}`) but never
removes `"x"` from the probability map, whose key set is `{"x", "b"}`. -/
theorem maps_not_always_same_keys :
    ¬ (∀ st, Reachable st → ∀ (now : ℤ) (p : MetricsPayload), ∀ k,
        (k ∈ keysOf (sampleUpdate now p st).servers_info_map ↔
          k ∈ keysOf (sampleUpdate now p st).servers_li_map) ∧
        (k ∈ keysOf (sampleUpdate now p st).servers_li_map ↔
          k ∈ keysOf (sampleUpdate now p st).servers_probability_map)) := by
  intro hcl
  have h := hcl ((pick_server ["x"] (F.fin 0) 0 initState).2)
    cexKeysSt_reachable_aux 10 ⟨"b", 0, 0, 0⟩ "x"
  have hx : "x" ∈ keysOf
      (sampleUpdate 10 ⟨"b", 0, 0, 0⟩
        ((pick_server ["x"] (F.fin 0) 0 initState).2)).servers_probability_map := by
    with_unfolding_all decide
  have hnx : "x" ∉ keysOf
      (sampleUpdate 10 ⟨"b", 0, 0, 0⟩
        ((pick_server ["x"] (F.fin 0) 0 initState).2)).servers_li_map := by
    with_unfolding_all decide
  exact hnx (h.2.mpr hx)

/-- C4 amended: after any update cycle (indeed, in every reachable state),
the info map and the L map have exactly the same key set, and every key of
the L map is a key of the probability map; the probability map may hold
extra keys seeded by `pick_server` before their first sample. -/
theorem maps_key_domains (st : StratState) (hst : Reachable st) :
    (∀ k, k ∈ keysOf st.servers_info_map ↔ k ∈ keysOf st.servers_li_map) ∧
    (∀ k, k ∈ keysOf st.servers_li_map →
      k ∈ keysOf st.servers_probability_map) :=
  ⟨(reachable_good st hst).keysInfoLi, (reachable_good st hst).keysLiPi⟩

/-- Witness for the amended C4: in the counterexample state, backend `"b"`,
a key of the L map, is also a key of the probability map. -/
theorem maps_key_domains_witness :
    "b" ∈ keysOf cexKeysSt.servers_probability_map :=
  (maps_key_domains cexKeysSt
    (Reachable.update 10 ⟨"b", 0, 0, 0⟩ _ cexKeysSt_reachable_aux)).2 "b"
    (by with_unfolding_all decide)

/-! ## C2: the weighted draw of `pick_server` -/

theorem findVal_mem_vals {α : Type} (m : List (String × α)) (k : String) (v : α)
    (h : findVal m k = some v) : v ∈ valsOf m := by
  induction m with
  | nil => exact Option.noConfusion h
  | cons hd tl ih =>
      obtain ⟨k0, v0⟩ := hd
      by_cases h0 : k0 = k
      · simp only [findVal, if_pos h0] at h
        injection h with h
        simp [valsOf, h]
      · simp only [findVal, if_neg h0] at h
        simp only [valsOf, List.map_cons, List.mem_cons]
        exact Or.inr (by simpa [valsOf] using ih h)

/-- The rational value of a probability-map lookup
(`.copied().unwrap_or(0.0)`, under the invariant that stored values are
finite). -/
def finValD : Option F → ℚ
  | some (F.fin q) => q
  | _ => 0

/-- The weight vector of the draw, at the rational level:
`wj = max(0, P[candidates[j]])`, zero for unknown candidates. -/
def qWeights (probs : List (String × F)) (servers : List String) :
    List (String × ℚ) :=
  servers.map (fun s => (s, max (finValD (findVal probs s)) 0))

/-- Modelled from the spec's words (claim C2): "return the first candidate
whose cumulative weight reaches `u`" — the first entry whose cumulative
weight is at least `u`, with no requirement that its own weight be
positive. -/
def specFirstReaching : List (String × ℚ) → ℚ → ℚ → Option String
  | [], _, _ => none
  | (s, w) :: rest, acc, u =>
      if u ≤ acc + w then some s else specFirstReaching rest (acc + w) u

/-- What the scan actually computes: the first candidate whose weight is
positive and whose cumulative weight is at least `u`. -/
def firstPosCumReaching : List (String × ℚ) → ℚ → ℚ → Option String
  | [], _, _ => none
  | (s, w) :: rest, acc, u =>
      if 0 < w ∧ u ≤ acc + w then some s
      else firstPosCumReaching rest (acc + w) u

theorem scanWeights_eq_firstPos (ws : List (String × ℚ))
    (hnn : ∀ kv ∈ ws, 0 ≤ kv.2) (u : ℚ) :
    ∀ acc : ℚ,
      scanWeights (ws.map (fun kv => (kv.1, F.fin kv.2))) (F.fin (u - acc))
        = firstPosCumReaching ws acc u := by
  induction ws with
  | nil => intro acc; rfl
  | cons hd tl ih =>
      intro acc
      obtain ⟨s, w⟩ := hd
      have hw : 0 ≤ w := hnn (s, w) (by simp)
      have htl : ∀ kv ∈ tl, 0 ≤ kv.2 := fun kv hkv => hnn kv (by simp [hkv])
      by_cases hw0 : w ≤ 0
      · have hwz : w = 0 := le_antisymm hw0 hw
        subst hwz
        have h1 : F.le (F.fin 0) (F.fin 0) = true := by decide
        simp only [List.map_cons, scanWeights, h1, if_pos]
        rw [ih htl acc]
        simp [firstPosCumReaching]
      · have hwpos : 0 < w := lt_of_not_ge hw0
        have h1 : F.le (F.fin w) (F.fin 0) = false := by
          simp [F.le, hw0]
        simp only [List.map_cons, scanWeights, h1, Bool.false_eq_true,
          if_false]
        by_cases h2 : u - acc ≤ w
        · have h2' : F.le (F.fin (u - acc)) (F.fin w) = true := by
            simp [F.le, h2]
          have h3 : u ≤ acc + w := by linarith
          simp [h2', firstPosCumReaching, hwpos, h3]
        · have h2' : F.le (F.fin (u - acc)) (F.fin w) = false := by
            simp [F.le, h2]
          have h3 : ¬ u ≤ acc + w := by intro h; exact h2 (by linarith)
          have hsub : F.sub (F.fin (u - acc)) (F.fin w) = F.fin (u - (acc + w)) := by
            show F.fin (u - acc + -w) = F.fin (u - (acc + w))
            congr 1
            ring
          simp only [h2', Bool.false_eq_true, if_false, hsub]
          rw [ih htl (acc + w)]
          simp [firstPosCumReaching, h3, hwpos]

theorem foldl_fadd_fin (l : List ℚ) (a : ℚ) :
    (l.map F.fin).foldl F.add (F.fin a) = F.fin (a + l.sum) := by
  induction l generalizing a with
  | nil => simp
  | cons x xs ih =>
      have hstep : F.add (F.fin a) (F.fin x) = F.fin (a + x) := rfl
      simp only [List.map_cons, List.foldl_cons, hstep, ih, List.sum_cons]
      congr 1
      ring

theorem sumF_map_fin (l : List ℚ) : F.sumF (l.map F.fin) = F.fin l.sum := by
  have := foldl_fadd_fin l 0
  simpa [F.sumF] using this

theorem weightsOf_eq_qWeights (probs : List (String × F)) (servers : List String)
    (hfin : ∀ v ∈ valsOf probs, v.isFinite = true) :
    weightsOf probs servers
      = (qWeights probs servers).map (fun kv => (kv.1, F.fin kv.2)) := by
  unfold weightsOf qWeights
  rw [List.map_map]
  apply List.map_congr_left
  intro s _
  simp only [Function.comp]
  cases hv : findVal probs s with
  | none => simp [finValD, F.fmax, F.le]
  | some v =>
      have hvf := hfin v (findVal_mem_vals probs s v hv)
      cases v with
      | fin q =>
          simp only [finValD, Option.getD_some]
          by_cases hq : q ≤ 0
          · have hm : max q 0 = 0 := by simp [max_def, hq]
            simp [F.fmax, F.le, hq, hm]
          · have hm : max q 0 = q := max_eq_left (le_of_not_le hq)
            simp [F.fmax, F.le, hq, hm]
      | pinf => exact absurd hvf (by simp [F.isFinite])
      | ninf => exact absurd hvf (by simp [F.isFinite])
      | nan => exact absurd hvf (by simp [F.isFinite])

/-- C2 counterexample: with candidates `["a", "b"]`, probabilities
`P(a) = 0`, `P(b) = 1` and random draw `u = 0` (possible, since
`rng.gen::<f64>()` ranges over `[0, 1)`), the cumulative weight of the first
candidate `"a"` is `0`, which already reaches `u = 0` — the claim predicts
`"a"` — but the scan skips zero-weight entries and the code returns `"b"`. -/
theorem pickChosen_skips_zero_weight_first :
    pickChosen ["a", "b"] [("a", F.fin 0), ("b", F.fin 1)] (F.fin 0) 0
      = some "b" ∧
    specFirstReaching (qWeights [("a", F.fin 0), ("b", F.fin 1)] ["a", "b"]) 0
        (0 * ((qWeights [("a", F.fin 0), ("b", F.fin 1)] ["a", "b"]).map
          (fun kv => kv.2)).sum)
      = some "a" := by
  constructor <;> with_unfolding_all decide

/-- C2 amended: for every non-empty candidate list the weighted pick builds
weights `wj = max(0, P[candidates[j]])` (0 for unknown candidates); if the
total `W` is positive it draws `u = u01 * W ∈ [0, W)` and returns the first
candidate *with positive weight* whose cumulative weight reaches `u`,
falling back to the last candidate if the scan selects nothing; if `W` is
not positive it returns a uniformly random element of the candidate list. -/
theorem pickChosen_weighted_draw (servers : List String)
    (probs : List (String × F)) (u01 : ℚ) (idx : ℕ)
    (hne : servers ≠ [])
    (hfin : ∀ v ∈ valsOf probs, v.isFinite = true) :
    weightsOf probs servers
      = (qWeights probs servers).map (fun kv => (kv.1, F.fin kv.2)) ∧
    (0 < ((qWeights probs servers).map (fun kv => kv.2)).sum →
      ∀ s, firstPosCumReaching (qWeights probs servers) 0
          (u01 * ((qWeights probs servers).map (fun kv => kv.2)).sum) = some s →
        pickChosen servers probs (F.fin u01) idx = some s) ∧
    (0 < ((qWeights probs servers).map (fun kv => kv.2)).sum →
      firstPosCumReaching (qWeights probs servers) 0
          (u01 * ((qWeights probs servers).map (fun kv => kv.2)).sum) = none →
        pickChosen servers probs (F.fin u01) idx
          = ((qWeights probs servers).getLast?).map (fun kv => kv.1)) ∧
    (¬ 0 < ((qWeights probs servers).map (fun kv => kv.2)).sum →
      pickChosen servers probs (F.fin u01) idx
        = some (servers.getD (idx % servers.length) "")) ∧
    (∀ st : StratState, (pick_server servers (F.fin u01) idx st).1
        = pickChosen servers (pickPi servers st) (F.fin u01) idx) := by
  have h1 := weightsOf_eq_qWeights probs servers hfin
  have hnn : ∀ kv ∈ qWeights probs servers, 0 ≤ kv.2 := by
    intro kv hkv
    unfold qWeights at hkv
    obtain ⟨s, _, hs⟩ := List.mem_map.mp hkv
    rw [← hs]
    exact le_max_right _ _
  have htot : F.sumF ((weightsOf probs servers).map (fun kv => kv.2))
      = F.fin (((qWeights probs servers).map (fun kv => kv.2)).sum) := by
    rw [h1, List.map_map]
    have hcomp : ((fun kv : String × F => kv.2) ∘
        (fun kv : String × ℚ => (kv.1, F.fin kv.2)))
        = fun kv : String × ℚ => F.fin kv.2 := rfl
    rw [hcomp]
    have : (qWeights probs servers).map (fun kv => F.fin kv.2)
        = ((qWeights probs servers).map (fun kv => kv.2)).map F.fin := by
      rw [List.map_map]; rfl
    rw [this, sumF_map_fin]
  have hscan : scanWeights (weightsOf probs servers)
      (F.fin (u01 * ((qWeights probs servers).map (fun kv => kv.2)).sum))
      = firstPosCumReaching (qWeights probs servers) 0
          (u01 * ((qWeights probs servers).map (fun kv => kv.2)).sum) := by
    rw [h1]
    have := scanWeights_eq_firstPos (qWeights probs servers) hnn
      (u01 * ((qWeights probs servers).map (fun kv => kv.2)).sum) 0
    rw [sub_zero] at this
    exact this
  refine ⟨h1, ?_, ?_, ?_, ?_⟩
  · intro hW s hfirst
    show (if F.lt (F.fin 0) (F.sumF ((weightsOf probs servers).map (fun kv => kv.2))) then _ else _) = _
    rw [htot]
    have hlt : F.lt (F.fin 0) (F.fin (((qWeights probs servers).map
        (fun kv => kv.2)).sum)) = true := by
      simp [F.lt, hW]
    rw [if_pos hlt]
    have hmul : F.mul (F.fin u01) (F.fin (((qWeights probs servers).map
        (fun kv => kv.2)).sum)) = F.fin (u01 * ((qWeights probs servers).map
        (fun kv => kv.2)).sum) := rfl
    rw [hmul, hscan, hfirst]
  · intro hW hfirst
    show (if F.lt (F.fin 0) (F.sumF ((weightsOf probs servers).map (fun kv => kv.2))) then _ else _) = _
    rw [htot]
    have hlt : F.lt (F.fin 0) (F.fin (((qWeights probs servers).map
        (fun kv => kv.2)).sum)) = true := by
      simp [F.lt, hW]
    rw [if_pos hlt]
    have hmul : F.mul (F.fin u01) (F.fin (((qWeights probs servers).map
        (fun kv => kv.2)).sum)) = F.fin (u01 * ((qWeights probs servers).map
        (fun kv => kv.2)).sum) := rfl
    rw [hmul, hscan, hfirst]
    have hq_ne : qWeights probs servers ≠ [] := by
      unfold qWeights
      intro hc
      exact hne (List.map_eq_nil_iff.mp hc)
    cases hlast : (qWeights probs servers).getLast? with
    | none =>
        exact absurd (List.getLast?_eq_none_iff.mp hlast) hq_ne
    | some kv =>
        have hwlast : (weightsOf probs servers).getLast?
            = some (kv.1, F.fin kv.2) := by
          rw [h1, List.getLast?_map, hlast]
          rfl
        simp [hwlast]
  · intro hW
    show (if F.lt (F.fin 0) (F.sumF ((weightsOf probs servers).map (fun kv => kv.2))) then _ else _) = _
    rw [htot]
    have hlt : F.lt (F.fin 0) (F.fin (((qWeights probs servers).map
        (fun kv => kv.2)).sum)) = false := by
      simp [F.lt, hW]
    rw [if_neg (by simp [hlt])]
  · intro st
    simp [pick_server, hne, pickPi, insertAllK]

/-- Witness for the amended C2 at the counterexample input: the weight
vector for candidates `["a", "b"]` is the rational `max(0, ·)` vector. -/
theorem pickChosen_weighted_draw_witness :
    weightsOf [("a", F.fin 0), ("b", F.fin 1)] ["a", "b"]
      = (qWeights [("a", F.fin 0), ("b", F.fin 1)] ["a", "b"]).map
          (fun kv => (kv.1, F.fin kv.2)) :=
  (pickChosen_weighted_draw ["a", "b"] [("a", F.fin 0), ("b", F.fin 1)] 0 0
    (by decide) (by with_unfolding_all decide)).1

/-! ## C7, C9: round-robin, random, and strategy totality

`RoundRobinStrategy` (`load-balancer/src/strategy.rs`, lines 27-36) holds an
`AtomicUsize` counter; `fetch_add(1, Relaxed)` returns the pre-increment
value and wraps on overflow.  We model the counter as a natural below
`2^64` (`usize` on a 64-bit platform) with explicit wrapping.
`RandomStrategy` (`strategies/random.rs`) draws `rng.gen_range(0..len)`,
modelled by an arbitrary natural taken modulo the length (same range). -/

/-- The wrap-around modulus of `AtomicUsize` on a 64-bit platform. -/
def usizeWrap : ℕ := 2 ^ 64

/-- Model of `RoundRobinStrategy::pick_server`: `None` on an empty list (the counter
is untouched); otherwise `servers[fetch_add(1) % len]`, the counter
wrapping. -/
def rr_pick_server (servers : List String) (c : ℕ) : Option String × ℕ :=
  if servers = [] then (none, c)
  else (some (servers.getD (c % servers.length) ""), (c + 1) % usizeWrap)

/-- Model of `RandomStrategy::pick_server`: `None` on an empty list, otherwise the
backend at a uniformly drawn index. -/
def random_pick_server (servers : List String) (idx : ℕ) : Option String :=
  if servers = [] then none
  else some (servers.getD (idx % servers.length) "")

theorem getD_mem_of_lt (l : List String) (i : ℕ) (h : i < l.length) :
    l.getD i "" ∈ l := by
  induction l generalizing i with
  | nil => simp at h
  | cons hd tl ih =>
      cases i with
      | zero => simp [List.getD]
      | succ i =>
          simp only [List.length_cons, Nat.succ_lt_succ_iff] at h
          simp only [List.getD_cons_succ, List.mem_cons]
          exact Or.inr (ih i h)

theorem scanWeights_mem (ws : List (String × F)) (t : F) (s : String)
    (h : scanWeights ws t = some s) : s ∈ keysOf ws := by
  induction ws generalizing t with
  | nil => exact Option.noConfusion h
  | cons hd tl ih =>
      obtain ⟨s0, w0⟩ := hd
      simp only [scanWeights] at h
      by_cases h1 : F.le w0 (F.fin 0) = true
      · rw [if_pos h1] at h
        exact List.mem_cons_of_mem _ (ih _ h)
      · rw [if_neg h1] at h
        by_cases h2 : F.le t w0 = true
        · rw [if_pos h2] at h
          injection h with h
          simp [keysOf, h]
        · rw [if_neg h2] at h
          exact List.mem_cons_of_mem _ (ih _ h)

theorem keysOf_weightsOf (probs : List (String × F)) (servers : List String) :
    keysOf (weightsOf probs servers) = servers := by
  unfold keysOf weightsOf
  rw [List.map_map]
  exact List.map_id' servers

theorem pickChosen_mem (servers : List String) (probs : List (String × F))
    (u : F) (idx : ℕ) (hne : servers ≠ []) :
    ∃ s ∈ servers, pickChosen servers probs u idx = some s := by
  have hlen : 0 < servers.length := by
    cases servers with
    | nil => exact absurd rfl hne
    | cons a l => simp
  show ∃ s ∈ servers,
    (if F.lt (F.fin 0) (F.sumF ((weightsOf probs servers).map (fun kv => kv.2)))
      then _ else _) = some s
  by_cases hlt : F.lt (F.fin 0)
      (F.sumF ((weightsOf probs servers).map (fun kv => kv.2))) = true
  · rw [if_pos hlt]
    cases hsc : scanWeights (weightsOf probs servers)
        (F.mul u (F.sumF ((weightsOf probs servers).map (fun kv => kv.2)))) with
    | some s =>
        refine ⟨s, ?_, rfl⟩
        have := scanWeights_mem _ _ _ hsc
        rwa [keysOf_weightsOf] at this
    | none =>
        have hwne : weightsOf probs servers ≠ [] := by
          intro hc
          have := keysOf_weightsOf probs servers
          rw [hc] at this
          exact hne (by simpa [keysOf] using this.symm)
        cases hlast : (weightsOf probs servers).getLast? with
        | none => exact absurd (List.getLast?_eq_none_iff.mp hlast) hwne
        | some kv =>
            refine ⟨kv.1, ?_, rfl⟩
            have hmem : kv ∈ weightsOf probs servers :=
              List.mem_of_mem_getLast? hlast
            have : kv.1 ∈ keysOf (weightsOf probs servers) :=
              List.mem_map_of_mem Prod.fst hmem
            rwa [keysOf_weightsOf] at this
  · rw [if_neg hlt]
    exact ⟨servers.getD (idx % servers.length) "",
      getD_mem_of_lt _ _ (Nat.mod_lt _ hlen), rfl⟩

theorem pick_server_fst (servers : List String) (u : F) (idx : ℕ)
    (st : StratState) (hne : servers ≠ []) :
    (pick_server servers u idx st).1
      = pickChosen servers (pickPi servers st) u idx := by
  simp [pick_server, hne, pickPi, insertAllK]

/-- C9: for every strategy (round-robin, uniform random, telemetry-weighted)
and every candidate list, `pick_server` returns `None` exactly on the empty
list and otherwise returns `Some` element of the candidate list. -/
theorem strategies_total (servers : List String) (c idx : ℕ) (u : F)
    (st : StratState) :
    (servers = [] →
      (rr_pick_server servers c).1 = none ∧
      random_pick_server servers idx = none ∧
      (pick_server servers u idx st).1 = none) ∧
    (servers ≠ [] →
      (∃ s ∈ servers, (rr_pick_server servers c).1 = some s) ∧
      (∃ s ∈ servers, random_pick_server servers idx = some s) ∧
      (∃ s ∈ servers, (pick_server servers u idx st).1 = some s)) := by
  constructor
  · intro he
    subst he
    refine ⟨rfl, rfl, rfl⟩
  · intro hne
    have hlen : 0 < servers.length := by
      cases servers with
      | nil => exact absurd rfl hne
      | cons a l => simp
    refine ⟨?_, ?_, ?_⟩
    · exact ⟨servers.getD (c % servers.length) "",
        getD_mem_of_lt _ _ (Nat.mod_lt _ hlen), by simp [rr_pick_server, hne]⟩
    · exact ⟨servers.getD (idx % servers.length) "",
        getD_mem_of_lt _ _ (Nat.mod_lt _ hlen), by simp [random_pick_server, hne]⟩
    · obtain ⟨s, hs, hsel⟩ := pickChosen_mem servers (pickPi servers st) u idx hne
      exact ⟨s, hs, by rw [pick_server_fst servers u idx st hne, hsel]⟩

/-- Witness for C9 on the concrete candidate list `["a", "b"]`. -/
theorem strategies_total_witness :
    (∃ s ∈ ["a", "b"], (rr_pick_server ["a", "b"] 5).1 = some s) ∧
    (∃ s ∈ ["a", "b"], random_pick_server ["a", "b"] 3 = some s) ∧
    (∃ s ∈ ["a", "b"], (pick_server ["a", "b"] (F.fin 0) 3 initState).1
      = some s) :=
  (strategies_total ["a", "b"] 5 3 (F.fin 0) initState).2 (by decide)

/-- Run of `n` consecutive round-robin picks over a stable candidate list,
threading the wrapping counter; the picked backends in order. -/
def rrRun (servers : List String) (c : ℕ) : ℕ → List String
  | 0 => []
  | n + 1 =>
    match rr_pick_server servers c with
    | (some s, c') => s :: rrRun servers c' n
    | (none, c') => rrRun servers c' n

theorem rrRun_eq (servers : List String) (hne : servers ≠ []) (n : ℕ) :
    ∀ c : ℕ, c < usizeWrap →
      rrRun servers c n = (List.range n).map
        (fun i => servers.getD ((c + i) % usizeWrap % servers.length) "") := by
  induction n with
  | zero => intro c hc; rfl
  | succ n ih =>
      intro c hc
      have hpick : rr_pick_server servers c
          = (some (servers.getD (c % servers.length) ""), (c + 1) % usizeWrap) := by
        simp [rr_pick_server, hne]
      have hc' : (c + 1) % usizeWrap < usizeWrap :=
        Nat.mod_lt _ (by unfold usizeWrap; positivity)
      have hstep : rrRun servers c (n + 1)
          = servers.getD (c % servers.length) ""
            :: rrRun servers ((c + 1) % usizeWrap) n := by
        show (match rr_pick_server servers c with
          | (some s, c') => s :: rrRun servers c' n
          | (none, c') => rrRun servers c' n) = _
        rw [hpick]
      rw [hstep, ih _ hc', List.range_succ_eq_map, List.map_cons]
      congr 1
      · rw [Nat.add_zero, Nat.mod_eq_of_lt hc]
      · rw [List.map_map]
        apply List.map_congr_left
        intro i _
        simp only [Function.comp]
        congr 2
        rw [Nat.mod_add_mod]
        congr 1
        omega

theorem count_mod_range_cycle (k a j : ℕ) (hk : 0 < k) (hj : j < k) :
    ((List.range k).map (fun i => (a + i) % k)).count j = 1 := by
  have hnd : ((List.range k).map (fun i => (a + i) % k)).Nodup := by
    refine List.Nodup.map_on ?_ (List.nodup_range k)
    intro x hx y hy hxy
    rw [List.mem_range] at hx hy
    have hmod : x % k = y % k := by
      have : a + x ≡ a + y [MOD k] := hxy
      have := Nat.ModEq.add_left_cancel' a this
      exact this
    rwa [Nat.mod_eq_of_lt hx, Nat.mod_eq_of_lt hy] at hmod
  have hmem : j ∈ (List.range k).map (fun i => (a + i) % k) := by
    rw [List.mem_map]
    refine ⟨(j + k - a % k) % k, ?_, ?_⟩
    · rw [List.mem_range]; exact Nat.mod_lt _ hk
    · have hmeq1 : a + (j + k - a % k) % k ≡ a + (j + k - a % k) [MOD k] :=
        (Nat.ModEq.refl a).add (Nat.mod_modEq _ k)
      have hmeq2 : a + (j + k - a % k) ≡ a % k + (j + k - a % k) [MOD k] :=
        ((Nat.mod_modEq a k).symm).add (Nat.ModEq.refl _)
      have h2 : a % k < k := Nat.mod_lt _ hk
      have h3 : a % k + (j + k - a % k) = j + k := by omega
      have t1 := hmeq1.trans hmeq2
      rw [h3] at t1
      have hfin : (a + (j + k - a % k) % k) % k = (j + k) % k := t1
      rw [hfin, Nat.add_mod_right, Nat.mod_eq_of_lt hj]
  exact List.count_eq_one_of_mem hnd hmem

theorem count_mod_range_cycles (k j m : ℕ) (hk : 0 < k) (hj : j < k) :
    ∀ a : ℕ, ((List.range (m * k)).map (fun i => (a + i) % k)).count j = m := by
  induction m with
  | zero => intro a; simp
  | succ m ih =>
      intro a
      have hsplit : List.range ((m + 1) * k)
          = List.range (m * k) ++ (List.range k).map (fun i => m * k + i) := by
        rw [Nat.succ_mul, List.range_add]
      rw [hsplit, List.map_append, List.count_append, ih a, List.map_map]
      have hblock : ((fun i => (a + i) % k) ∘ (fun i => m * k + i))
          = fun i => (a + m * k + i) % k := by
        funext i
        simp only [Function.comp]
        congr 1
        omega
      rw [hblock]
      have : ∀ i : ℕ, (a + m * k + i) % k = ((a + i) + m * k) % k := by
        intro i; congr 1; omega
      have hshift : (List.range k).map (fun i => (a + m * k + i) % k)
          = (List.range k).map (fun i => (a + m * k + i) % k) := rfl
      have hcycle := count_mod_range_cycle k (a + m * k) j hk hj
      rw [hcycle]

theorem count_map_getD (l : List String) (hnd : l.Nodup) (j : ℕ)
    (hj : j < l.length) :
    ∀ idxs : List ℕ, (∀ i ∈ idxs, i < l.length) →
      (idxs.map (fun i => l.getD i "")).count (l.getD j "") = idxs.count j := by
  intro idxs
  induction idxs with
  | nil => intro _; rfl
  | cons i rest ih =>
      intro hlt
      have hi : i < l.length := hlt i (by simp)
      have hrest : ∀ x ∈ rest, x < l.length := fun x hx => hlt x (by simp [hx])
      simp only [List.map_cons, List.count_cons, ih hrest]
      congr 1
      have hgetD : ∀ n (hn : n < l.length), l.getD n "" = l.get ⟨n, hn⟩ := by
        intro n hn
        rw [List.getD_eq_getElem?_getD, List.getElem?_eq_getElem hn]
        rfl
      by_cases heq : i = j
      · subst heq; simp
      · have hne : l.getD i "" ≠ l.getD j "" := by
          rw [hgetD i hi, hgetD j hj]
          intro hc
          have := (List.Nodup.get_inj_iff hnd).mp hc
          have : i = j := congrArg Fin.val this
          exact heq this
        have hne' : ¬ l[i]?.getD "" = l[j]?.getD "" := by
          intro hc
          apply hne
          rw [hgetD i hi, hgetD j hj]
          rw [List.getElem?_eq_getElem hi, List.getElem?_eq_getElem hj] at hc
          simpa using hc
        simp [hne', heq]

/-- C7 counterexample: fairness fails across the `usize` wrap-around.  With
candidates `["a", "b", "c"]` (`k = 3`, `m = 1`) and the counter at
`2^64 - 1`, the three consecutive picks use counter values
`2^64 - 1, 0, 1`, whose residues mod 3 are `0, 0, 1`: candidate `"c"` is
never returned (and `"a"` is returned twice), not "exactly once" as the
claim states. -/
theorem rr_fairness_fails_at_wrap :
    ("c" ∈ ["a", "b", "c"]) ∧
    (rrRun ["a", "b", "c"] (usizeWrap - 1) (1 * 3)).count "c" = 0 := by
  constructor
  · decide
  · decide

/-- C7 amended: `pick_server` returns `candidates[c mod len]` where `c` is
the pre-increment counter value, and advances the counter with wrap-around;
for a stable, duplicate-free candidate list of length `k`, any `m·k`
consecutive picks whose counter window does not cross the `usize`
wrap-around return each candidate exactly `m` times. -/
theorem rr_pick_and_fairness (servers : List String) (c m j : ℕ)
    (hne : servers ≠ []) (hnd : servers.Nodup)
    (hc : c < usizeWrap) (hwrap : c + m * servers.length ≤ usizeWrap)
    (hj : j < servers.length) :
    (rr_pick_server servers c).1
      = some (servers.getD (c % servers.length) "") ∧
    (rr_pick_server servers c).2 = (c + 1) % usizeWrap ∧
    (rrRun servers c (m * servers.length)).count (servers.getD j "") = m := by
  have hlen : 0 < servers.length := by
    cases servers with
    | nil => exact absurd rfl hne
    | cons a l => simp
  refine ⟨by simp [rr_pick_server, hne], by simp [rr_pick_server, hne], ?_⟩
  rw [rrRun_eq servers hne (m * servers.length) c hc]
  have hnowrap : (List.range (m * servers.length)).map
      (fun i => servers.getD ((c + i) % usizeWrap % servers.length) "")
      = (List.range (m * servers.length)).map
        (fun i => servers.getD ((c + i) % servers.length) "") := by
    apply List.map_congr_left
    intro i hi
    rw [List.mem_range] at hi
    have : c + i < usizeWrap := by
      have : m * servers.length ≤ usizeWrap - c := by omega
      omega
    rw [Nat.mod_eq_of_lt this]
  rw [hnowrap]
  have hcomp : (List.range (m * servers.length)).map
      (fun i => servers.getD ((c + i) % servers.length) "")
      = ((List.range (m * servers.length)).map
          (fun i => (c + i) % servers.length)).map
        (fun r => servers.getD r "") := by
    rw [List.map_map]
    rfl
  rw [hcomp]
  have hbound : ∀ r ∈ (List.range (m * servers.length)).map
      (fun i => (c + i) % servers.length), r < servers.length := by
    intro r hr
    rw [List.mem_map] at hr
    obtain ⟨i, _, hi⟩ := hr
    rw [← hi]
    exact Nat.mod_lt _ hlen
  rw [count_map_getD servers hnd j hj _ hbound]
  exact count_mod_range_cycles servers.length j m hlen hj c

/-- Witness for the amended C7: six picks over `["a", "b", "c"]` starting at
counter 1 return `"a"` exactly twice. -/
theorem rr_pick_and_fairness_witness :
    (rr_pick_server ["a", "b", "c"] 1).1
      = some ((["a", "b", "c"]).getD (1 % (["a", "b", "c"]).length) "") ∧
    (rr_pick_server ["a", "b", "c"] 1).2 = (1 + 1) % usizeWrap ∧
    (rrRun ["a", "b", "c"] 1 (2 * (["a", "b", "c"]).length)).count
      ((["a", "b", "c"]).getD 0 "") = 2 :=
  rr_pick_and_fairness ["a", "b", "c"] 1 2 0 (by decide) (by decide)
    (by decide) (by decide) (by decide)

/-! ## C8: the L4 pump buffers -/

/-- The buffer allocated by the client-to-server pump
(`load-balancer/src/load_balancer.rs` line 113: `vec![0; 8192]`). -/
def clientToServerBufferSize : ℕ := 8192

/-- The buffer allocated by the server-to-client pump (line 190:
`vec![0; 8192]`). -/
def serverToClientBufferSize : ℕ := 8192

/-- C8 counterexample: the claim says each pump reads into a 16 KiB
(16384-byte) buffer; the source allocates 8192-byte (8 KiB) buffers. -/
theorem l4_buffers_not_16KiB :
    clientToServerBufferSize ≠ 16384 ∧ serverToClientBufferSize ≠ 16384 := by
  constructor <;> decide

/-- C8 amended: each of the two byte-pump tasks reads into a reusable 8 KiB
(8192-byte) buffer, so per-connection buffer memory is bounded by two 8 KiB
buffers (16384 bytes in total). -/
theorem l4_buffers_8KiB :
    clientToServerBufferSize = 8192 ∧ serverToClientBufferSize = 8192 ∧
    clientToServerBufferSize + serverToClientBufferSize = 16384 :=
  ⟨rfl, rfl, rfl⟩

/-! ## C5, C6: the L7 HTTP forwarder

Header maps are modelled as lists of (name, value) pairs; `http::HeaderName`
compares case-insensitively (it canonicalizes names to lowercase), which the
model expresses by comparing lowercased names.  `HeaderMap::remove` deletes
every value stored under a name; `HeaderMap::insert` replaces them all. -/

/-- Lowercase a header name character-wise (the case-insensitive matching of
`http::HeaderName`, which canonicalizes names to ASCII lowercase). -/
def lowerName (s : String) : String := ⟨s.data.map Char.toLower⟩

/-- The seven hop-by-hop header names removed by the proxy
(`src/core/load-balancer/src/load_balancer.rs`, lines 179-187). -/
def hopByHopHeaders : List String :=
  ["connection", "proxy-connection", "keep-alive", "transfer-encoding",
   "upgrade", "te", "trailer"]

/-- Model of `sanitize_hop_by_hop_headers` (lines 177-191): remove every header whose
name matches one of the seven, case-insensitively. -/
def sanitize_hop_by_hop_headers (headers : List (String × String)) :
    List (String × String) :=
  headers.filter (fun kv => decide (lowerName kv.1 ∉ hopByHopHeaders))

/-- Model of `HeaderMap::insert`: replace every value stored under the
(case-insensitive) name with the single new pair (line 145-148, `Host`). -/
def insertHeader (headers : List (String × String)) (name value : String) :
    List (String × String) :=
  (name, value) :: headers.filter (fun kv => decide (lowerName kv.1 ≠ lowerName name))

/-- The headers of the outbound request (lines 136-149): the original
headers are appended onto the fresh request, hop-by-hop headers are removed,
then `Host` is overwritten with the backend authority. -/
def buildOutboundHeaders (original : List (String × String))
    (backend : String) : List (String × String) :=
  insertHeader (sanitize_hop_by_hop_headers original) "host" backend

/-- C6: for every forwarded attempt the outbound headers equal the original
request headers minus the seven hop-by-hop names (case-insensitive), with
`Host` overwritten by the backend authority; and a sanitized response
contains none of the seven hop-by-hop names. -/
theorem l7_hop_by_hop_sanitization (original response : List (String × String))
    (backend name value : String) :
    ((name, value) ∈ buildOutboundHeaders original backend ↔
      ((name = "host" ∧ value = backend) ∨
        ((name, value) ∈ original ∧ lowerName name ∉ hopByHopHeaders ∧
          lowerName name ≠ "host"))) ∧
    (∀ kv ∈ buildOutboundHeaders original backend,
      lowerName kv.1 ∉ hopByHopHeaders) ∧
    (∀ kv ∈ sanitize_hop_by_hop_headers response,
      lowerName kv.1 ∉ hopByHopHeaders) := by
  have hhost : lowerName "host" = "host" := by decide
  refine ⟨?_, ?_, ?_⟩
  · unfold buildOutboundHeaders insertHeader sanitize_hop_by_hop_headers
    simp only [List.mem_cons, List.mem_filter, Prod.mk.injEq, hhost,
      decide_eq_true_eq]
    tauto
  · intro kv hkv
    unfold buildOutboundHeaders insertHeader sanitize_hop_by_hop_headers at hkv
    rcases List.mem_cons.mp hkv with h | h
    · rw [h]
      simp only [hhost]
      decide
    · have := (List.mem_filter.mp ((List.mem_filter.mp h).1)).2
      simpa using this
  · intro kv hkv
    have := (List.mem_filter.mp hkv).2
    simpa using this

/-- Witness for C6: a concrete original header list with a `Connection`
header and a `Host` header: the `Connection` pair is not forwarded. -/
theorem l7_hop_by_hop_sanitization_witness :
    ("Connection", "close") ∈ buildOutboundHeaders
        [("Connection", "close"), ("Host", "lb"), ("X-Trace", "z")] "b:1" ↔
      ((("Connection" : String) = "host" ∧ ("close" : String) = "b:1") ∨
        ((("Connection", "close") : String × String) ∈
            [(("Connection", "close") : String × String), ("Host", "lb"),
              ("X-Trace", "z")] ∧
          lowerName "Connection" ∉ hopByHopHeaders ∧
          lowerName "Connection" ≠ "host")) :=
  (l7_hop_by_hop_sanitization
    [("Connection", "close"), ("Host", "lb"), ("X-Trace", "z")] []
    "b:1" "Connection" "close").1

/-! ### The L7 retry loop (lines 82-166) -/

/-- The per-attempt timeout in seconds (line 152: `Duration::from_secs(5)`). -/
def attemptTimeoutSeconds : ℕ := 5

/-- Outcome of one dispatch attempt: an upstream response, or failure
(transport error, or expiry of the per-attempt timeout). -/
inductive DispatchOutcome where
  | ok (status : ℕ) (headers : List (String × String)) (body : String)
  | failed

/-- An HTTP response of the model. -/
structure HttpResponse where
  status : ℕ
  headers : List (String × String)
  body : String
deriving DecidableEq, Repr

/-- Model of `response_with_status` (lines 193-199). -/
def response_with_status (status : ℕ) (msg : String) : HttpResponse :=
  ⟨status, [("content-type", "text/plain; charset=utf-8")], msg⟩

/-- The retry loop of lines 84-166, parametrized by the strategy (`pickf`),
by whether the URI/request build succeeds for a backend (`uriOk`, lines
111-134: on failure the backend is skipped without a dispatch), and by the
dispatch outcome.  Returns the response together with the list of backends
actually dispatched to; `none` means the fuel ran out (never happens for a
member-returning strategy).  The attempt set is threaded as `attempted`. -/
def forwardLoop (pickf : List String → Option String) (uriOk : String → Bool)
    (dispatch : String → DispatchOutcome) (servers : List String) :
    List String → ℕ → Option (HttpResponse × List String)
  | _, 0 => none
  | attempted, fuel + 1 =>
    let candidates := servers.filter (fun s => decide (s ∉ attempted))
    if candidates = [] then
      some (response_with_status 502 "No available servers", [])
    else
      match pickf candidates with
      | none => some (response_with_status 502 "No available servers", [])
      | some backend =>
          if uriOk backend then
            match dispatch backend with
            | DispatchOutcome.ok status headers body =>
                some (⟨status, sanitize_hop_by_hop_headers headers, body⟩,
                  [backend])
            | DispatchOutcome.failed =>
                match forwardLoop pickf uriOk dispatch servers
                    (backend :: attempted) fuel with
                | some (resp, ds) => some (resp, backend :: ds)
                | none => none
          else
            forwardLoop pickf uriOk dispatch servers (backend :: attempted) fuel

/-- One full request: run the retry loop with an empty attempt set and
enough fuel to exhaust all backends. -/
def l7_forward (pickf : List String → Option String) (uriOk : String → Bool)
    (dispatch : String → DispatchOutcome) (servers : List String) :
    Option (HttpResponse × List String) :=
  forwardLoop pickf uriOk dispatch servers [] (servers.length + 1)

theorem length_filter_ne_lt (l : List String) (b : String) (hb : b ∈ l) :
    (l.filter (fun s => decide (s ≠ b))).length < l.length := by
  induction l with
  | nil => simp at hb
  | cons x xs ih =>
      by_cases hx : x = b
      · subst hx
        have hdrop : (x :: xs).filter (fun s => decide (s ≠ x))
            = xs.filter (fun s => decide (s ≠ x)) := by
          simp [List.filter_cons]
        rw [hdrop]
        have := List.length_filter_le (fun s => decide (s ≠ x)) xs
        simp only [List.length_cons]
        omega
      · have hkeep : (x :: xs).filter (fun s => decide (s ≠ b))
            = x :: xs.filter (fun s => decide (s ≠ b)) := by
          simp [List.filter_cons, hx]
        rw [hkeep]
        rcases List.mem_cons.mp hb with h | h
        · exact absurd h.symm hx
        · simpa [List.length_cons] using Nat.succ_lt_succ (ih h)

theorem filter_attempted_cons (servers attempted : List String) (b : String) :
    servers.filter (fun s => decide (s ∉ b :: attempted))
      = (servers.filter (fun s => decide (s ∉ attempted))).filter
          (fun s => decide (s ≠ b)) := by
  rw [List.filter_filter]
  apply List.filter_congr
  intro s _
  simp [List.mem_cons, not_or, Bool.decide_and, Bool.and_comm]

theorem length_filter_attempted_lt (servers attempted : List String)
    (b : String) (hb : b ∈ servers.filter (fun s => decide (s ∉ attempted))) :
    (servers.filter (fun s => decide (s ∉ b :: attempted))).length
      < (servers.filter (fun s => decide (s ∉ attempted))).length := by
  rw [filter_attempted_cons]
  exact length_filter_ne_lt _ b hb

theorem forwardLoop_exhaustion (pickf : List String → Option String)
    (uriOk : String → Bool) (dispatch : String → DispatchOutcome)
    (servers : List String)
    (hpick : ∀ cs s, pickf cs = some s → s ∈ cs)
    (hfail : ∀ b ∈ servers, dispatch b = DispatchOutcome.failed) :
    ∀ fuel attempted,
      (servers.filter (fun s => decide (s ∉ attempted))).length < fuel →
      ∃ ds, forwardLoop pickf uriOk dispatch servers attempted fuel
          = some (response_with_status 502 "No available servers", ds) ∧
        ds.Nodup ∧ (∀ b ∈ ds, b ∈ servers) ∧ (∀ b ∈ ds, b ∉ attempted) := by
  intro fuel
  induction fuel with
  | zero => intro attempted h; omega
  | succ fuel ih =>
      intro attempted hlt
      by_cases hcand : servers.filter (fun s => decide (s ∉ attempted)) = []
      · refine ⟨[], ?_, List.nodup_nil, by simp, by simp⟩
        show (if servers.filter (fun s => decide (s ∉ attempted)) = []
          then _ else _) = _
        rw [if_pos hcand]
      · cases hpr : pickf (servers.filter (fun s => decide (s ∉ attempted))) with
        | none =>
            refine ⟨[], ?_, List.nodup_nil, by simp, by simp⟩
            show (if servers.filter (fun s => decide (s ∉ attempted)) = []
              then _ else _) = _
            rw [if_neg hcand, hpr]
        | some b =>
            have hbmem := hpick _ _ hpr
            have hbs : b ∈ servers := (List.mem_filter.mp hbmem).1
            have hba : b ∉ attempted := by
              have := (List.mem_filter.mp hbmem).2
              simpa using this
            have hlt' : (servers.filter
                (fun s => decide (s ∉ b :: attempted))).length < fuel := by
              have := length_filter_attempted_lt servers attempted b hbmem
              omega
            obtain ⟨ds, heq, hnd, hsub, hdisj⟩ := ih (b :: attempted) hlt'
            by_cases huri : uriOk b = true
            · refine ⟨b :: ds, ?_, ?_, ?_, ?_⟩
              · show (if servers.filter (fun s => decide (s ∉ attempted)) = []
                  then _ else _) = _
                rw [if_neg hcand, hpr]
                simp only [huri, if_true]
                rw [hfail b hbs, heq]
              · exact List.nodup_cons.mpr
                  ⟨fun hc => (hdisj b hc) (by simp), hnd⟩
              · intro x hx
                rcases List.mem_cons.mp hx with h | h
                · rw [h]; exact hbs
                · exact hsub x h
              · intro x hx
                rcases List.mem_cons.mp hx with h | h
                · rw [h]; exact hba
                · exact fun hc => (hdisj x h) (by simp [hc])
            · refine ⟨ds, ?_, hnd, hsub, ?_⟩
              · show (if servers.filter (fun s => decide (s ∉ attempted)) = []
                  then _ else _) = _
                rw [if_neg hcand, hpr]
                simp only [huri]
                rw [if_neg (by simp [huri])]
                exact heq
              · intro x hx
                exact fun hc => (hdisj x hx) (by simp [hc])

/-- C5: if every dispatch attempt fails (transport error or expiry of the
5-second per-attempt timeout) for every known backend, the forwarder
returns exactly one `502` response with body `"No available servers"`, and
each backend is added to the attempt set and dispatched to at most once
(the dispatched list has no duplicates and only holds known backends).
Holds for any strategy whose pick returns a member of its candidate list. -/
theorem l7_retry_exhaustion (pickf : List String → Option String)
    (uriOk : String → Bool) (dispatch : String → DispatchOutcome)
    (servers : List String)
    (hpick : ∀ cs s, pickf cs = some s → s ∈ cs)
    (hfail : ∀ b ∈ servers, dispatch b = DispatchOutcome.failed) :
    attemptTimeoutSeconds = 5 ∧
    ∃ ds, l7_forward pickf uriOk dispatch servers
        = some (response_with_status 502 "No available servers", ds) ∧
      ds.Nodup ∧ (∀ b ∈ ds, b ∈ servers) := by
  refine ⟨rfl, ?_⟩
  have hfuel : (servers.filter (fun s => decide (s ∉ ([] : List String)))).length
      < servers.length + 1 := by
    have := List.length_filter_le (fun s => decide (s ∉ ([] : List String)))
      servers
    omega
  obtain ⟨ds, heq, hnd, hsub, _⟩ := forwardLoop_exhaustion pickf uriOk dispatch
    servers hpick hfail (servers.length + 1) [] hfuel
  exact ⟨ds, heq, hnd, hsub⟩

/-- Witness for C5: both backends refuse; the head-of-list strategy yields
one `502 "No available servers"` with each backend dispatched once. -/
theorem l7_retry_exhaustion_witness :
    attemptTimeoutSeconds = 5 ∧
    ∃ ds, l7_forward (fun cs => cs.head?) (fun _ => true)
        (fun _ => DispatchOutcome.failed) ["a", "b"]
        = some (response_with_status 502 "No available servers", ds) ∧
      ds.Nodup ∧ (∀ b ∈ ds, b ∈ ["a", "b"]) :=
  l7_retry_exhaustion (fun cs => cs.head?) (fun _ => true)
    (fun _ => DispatchOutcome.failed) ["a", "b"]
    (fun _ _ h => List.mem_of_mem_head? h) (fun _ _ => rfl)

/-! ## C10: L4 byte fidelity (`load-balancer/src/load_balancer.rs`)

Each pump (lines 112-187 and 189-222) loops over socket reads; a chunk is
inspected by the inline HTTP logger and then written verbatim
(`write_all(&buffer[..n])`); `Ok(0)` or `Err(_)` breaks the loop.  The
request-path, host-header and request-id values feed only `println!` lines
and are omitted from the state; the flags and the HTTP buffer, which the
inspection threads along, are modelled exactly. -/

/-- One read event on a socket: a data chunk (`Ok(n)`, `n > 0`), an orderly
close (`Ok(0)`), or a read error (`Err`). -/
inductive ReadEvent where
  | chunk (data : List ℕ)
  | closed
  | errored

/-- UTF-8 bytes of a string literal. -/
def strBytes (s : String) : List ℕ := s.toUTF8.toList.map (fun b => b.toNat)

/-- The request-method prefixes recognized by the inline logger
(lines 126-132). -/
def methodPrefixes : List (List ℕ) :=
  [strBytes "GET ", strBytes "POST ", strBytes "PUT ", strBytes "DELETE ",
   strBytes "HEAD ", strBytes "OPTIONS ", strBytes "PATCH "]

/-- Method-prefix test of lines 126-132. -/
def isMethodStart (data : List ℕ) : Bool :=
  methodPrefixes.any (fun p => p.isPrefixOf data)

/-- Scan for the header terminator, modelling the windows-of-4 search for CRLFCRLF of lines 157 and 174. -/
def hasHeaderEnd : List ℕ → Bool
  | a :: b :: c :: d :: rest =>
      (a == 13 && b == 10 && c == 13 && d == 10)
        || hasHeaderEnd (b :: c :: d :: rest)
  | _ => false

/-- The inspection state of the client-to-server pump (lines 114-117). -/
structure C2SState where
  httpBuffer : List ℕ
  inRequest : Bool
  headersComplete : Bool

/-- One iteration of the client-to-server inspection (lines 126-176): a
method prefix starts a request and resets the HTTP buffer; in-request data
is appended; the `\r\n\r\n` scan completes the headers and ends the
request. -/
def c2sStep (st : C2SState) (data : List ℕ) : C2SState :=
  let st1 :=
    if !st.inRequest && isMethodStart data then
      ⟨data, true, st.headersComplete⟩
    else if st.inRequest then
      ⟨st.httpBuffer ++ data, st.inRequest, st.headersComplete⟩
    else st
  let st2 :=
    if st1.inRequest && !st1.headersComplete && hasHeaderEnd st1.httpBuffer then
      ⟨st1.httpBuffer, st1.inRequest, true⟩
    else st1
  if st2.inRequest && hasHeaderEnd st2.httpBuffer then
    ⟨st2.httpBuffer, false, st2.headersComplete⟩
  else st2

/-- The bytes written to the backend by the client-to-server pump. -/
def c2sPump : C2SState → List ReadEvent → List ℕ
  | _, [] => []
  | st, ReadEvent.chunk data :: rest => data ++ c2sPump (c2sStep st data) rest
  | _, ReadEvent.closed :: _ => []
  | _, ReadEvent.errored :: _ => []

/-- The inspection state of the server-to-client pump: the single
`response_started` flag (lines 191-211). -/
def s2cStep (started : Bool) (data : List ℕ) : Bool :=
  started || (strBytes "HTTP/").isPrefixOf data

/-- The bytes written to the client by the server-to-client pump. -/
def s2cPump : Bool → List ReadEvent → List ℕ
  | _, [] => []
  | b, ReadEvent.chunk data :: rest => data ++ s2cPump (s2cStep b data) rest
  | _, ReadEvent.closed :: _ => []
  | _, ReadEvent.errored :: _ => []

/-- The chunks delivered by the source up to the first orderly close or read
error, concatenated. -/
def sourceBytes : List ReadEvent → List ℕ
  | [] => []
  | ReadEvent.chunk data :: rest => data ++ sourceBytes rest
  | ReadEvent.closed :: _ => []
  | ReadEvent.errored :: _ => []

/-- C10: for each direction of an L4 connection, the byte sequence written
to the destination equals, byte for byte and in order, the concatenation of
the chunks read from the source up to the first zero-length read or I/O
error — regardless of the state of the inline HTTP-logging inspection. -/
theorem l4_byte_fidelity (reads : List ReadEvent) :
    (∀ st : C2SState, c2sPump st reads = sourceBytes reads) ∧
    (∀ b : Bool, s2cPump b reads = sourceBytes reads) := by
  induction reads with
  | nil => exact ⟨fun _ => rfl, fun _ => rfl⟩
  | cons ev rest ih =>
      cases ev with
      | chunk data =>
          refine ⟨fun st => ?_, fun b => ?_⟩
          · show data ++ c2sPump (c2sStep st data) rest = data ++ sourceBytes rest
            rw [ih.1]
          · show data ++ s2cPump (s2cStep b data) rest = data ++ sourceBytes rest
            rw [ih.2]
      | closed => exact ⟨fun _ => rfl, fun _ => rfl⟩
      | errored => exact ⟨fun _ => rfl, fun _ => rfl⟩
